import Mathlib

/-!
Verification of the `DensePolygonClassStatistics` OTB application
(`src/app/otbDensePolygonClassStatistics.cxx`).

The application rasterizes a set of polygons twice (once burning the
geometry identifier, once burning the class-field value), builds a
validity mask from the support image's no-data values, accumulates per
label value the count of valid pixels (one `std::map` per label raster),
erases the internal no-data entry from each map, and writes the two
maps out as `samplesPerClass` / `samplesPerVector`.

The application code configures and composes OTB library filters whose
implementations are not part of this repository; those components
(rasterizer, validity-mask builder, streaming accumulator) are modelled
from the specification (`spec.md` §4.1-§4.3), while everything the
application file itself decides (the no-data sentinel value, the
finalization erase, the output-extension check, the field-selection
check, the class-field enumeration) is embedded directly from the source.
-/

namespace DensePolygonClassStatistics

/-- The label image pixel type is `UInt32` (`LabelImageType = UInt32ImageType`,
source line 50); `intNoData = itk::NumericTraits<ValueType>::max()`
(source lines 202-204) is therefore `2^32 - 1`. -/
def intNoData : Nat := 2 ^ 32 - 1

/-- A population map: the observable content of the C++
`StatsFilterType::LabelPopulationMapType` (a `std::map` from label value
to count), represented as a key-sorted association list. -/
abbrev PopMap := List (Nat × Nat)

/-- Lookup of a key's count; `0` when the key is absent. -/
def getCount : PopMap → Nat → Nat
  | [], _ => 0
  | (k', c) :: rest, k => if k' = k then c else getCount rest k

/-- Whether a key is present in the map (`map.count(k) != 0`). -/
def hasKey : PopMap → Nat → Bool
  | [], _ => false
  | (k', _) :: rest, k => decide (k' = k) || hasKey rest k

/-- Add `n` to the count stored at key `k`, creating the entry (in key
order, as `std::map` keeps its entries key-sorted) with count `n` when
the key is absent. -/
def addCount : PopMap → Nat → Nat → PopMap
  | [], k, n => [(k, n)]
  | (k', c) :: rest, k, n =>
    if k < k' then (k, n) :: (k', c) :: rest
    else if k = k' then (k', c + n) :: rest
    else (k', c) :: addCount rest k n

/-- Increment the count at key `k`, creating the entry with count 1 when
absent: the accumulator's per-cell map update. -/
def increment (m : PopMap) (k : Nat) : PopMap := addCount m k 1

/-- Erase, as `map.erase(k)`: drop the entry keyed `k`, keep everything
else. -/
def eraseKey : PopMap → Nat → PopMap
  | [], _ => []
  | (k', c) :: rest, k =>
    if k' = k then eraseKey rest k else (k', c) :: eraseKey rest k

/-- Total count stored in a map. -/
def mapSum : PopMap → Nat
  | [] => 0
  | (_, c) :: rest => c + mapSum rest

/-- Key-wise summation of two maps (the merge of two partial
population maps). -/
def mergeMaps (m1 m2 : PopMap) : PopMap :=
  m2.foldl (fun acc kc => addCount acc kc.1 kc.2) m1

/-- The representation invariant of a `std::map`: entries are strictly
sorted by key. -/
def SortedMap (m : PopMap) : Prop := m.Pairwise (fun a b => a.1 < b.1)

instance decSortedMap (m : PopMap) : Decidable (SortedMap m) := by
  unfold SortedMap
  infer_instance

/-- Maps built by the accumulator only ever hold positive counts. -/
def PosMap (m : PopMap) : Prop := ∀ kc ∈ m, 1 ≤ kc.2

/-! ### Basic map lemmas -/

theorem getCount_cons_self (k c : Nat) (t : PopMap) :
    getCount ((k, c) :: t) k = c := by
  rw [getCount, if_pos rfl]

theorem getCount_cons_ne {k' j : Nat} (c : Nat) (t : PopMap) (h : k' ≠ j) :
    getCount ((k', c) :: t) j = getCount t j := by
  rw [getCount, if_neg h]

theorem getCount_eq_zero_of_forall {m : PopMap} {j : Nat}
    (h : ∀ kc ∈ m, kc.1 ≠ j) : getCount m j = 0 := by
  induction m with
  | nil => rfl
  | cons hd tl ih =>
    obtain ⟨k', c⟩ := hd
    have hk' : k' ≠ j := h (k', c) (List.mem_cons_self _ _)
    have htl := ih (fun kc hkc => h kc (List.mem_cons_of_mem _ hkc))
    simp [getCount, hk', htl]

theorem getCount_eq_zero_of_not_hasKey {m : PopMap} {j : Nat}
    (h : hasKey m j = false) : getCount m j = 0 := by
  induction m with
  | nil => rfl
  | cons hd tl ih =>
    obtain ⟨k', c⟩ := hd
    simp only [hasKey, Bool.or_eq_false_iff, decide_eq_false_iff_not] at h
    simp [getCount, h.1, ih h.2]

theorem hasKey_eq_false_of_getCount_eq_zero {m : PopMap} {j : Nat}
    (hpos : PosMap m) (h : getCount m j = 0) : hasKey m j = false := by
  induction m with
  | nil => rfl
  | cons hd tl ih =>
    obtain ⟨k', c⟩ := hd
    have hc : 1 ≤ c := hpos (k', c) (List.mem_cons_self _ _)
    by_cases hk : k' = j
    · rw [getCount, if_pos hk] at h
      omega
    · rw [getCount, if_neg hk] at h
      have := ih (fun kc hkc => hpos kc (List.mem_cons_of_mem _ hkc)) h
      simp [hasKey, hk, this]

theorem hasKey_eq_false_of_forall {m : PopMap} {k : Nat}
    (h : ∀ kc ∈ m, kc.1 ≠ k) : hasKey m k = false := by
  induction m with
  | nil => rfl
  | cons hd tl ih =>
    obtain ⟨k', c⟩ := hd
    have h1 : k' ≠ k := h (k', c) (List.mem_cons_self _ _)
    have h2 := ih (fun kc hkc => h kc (List.mem_cons_of_mem _ hkc))
    simp [hasKey, h1, h2]

theorem mem_addCount {m : PopMap} {k n : Nat} :
    ∀ kc ∈ addCount m k n, kc.1 = k ∨ kc ∈ m := by
  induction m with
  | nil =>
    intro kc hkc
    simp only [addCount, List.mem_singleton] at hkc
    subst hkc; exact Or.inl rfl
  | cons hd tl ih =>
    obtain ⟨k', c⟩ := hd
    intro kc hkc
    rw [addCount] at hkc
    rcases Nat.lt_trichotomy k k' with hlt | heq | hgt
    · rw [if_pos hlt] at hkc
      simp only [List.mem_cons] at hkc
      rcases hkc with h | h | h
      · subst h; exact Or.inl rfl
      · exact Or.inr (by simp [h])
      · exact Or.inr (by simp [h])
    · rw [if_neg (by omega), if_pos heq] at hkc
      simp only [List.mem_cons] at hkc
      rcases hkc with h | h
      · subst h; exact Or.inl heq.symm
      · exact Or.inr (by simp [h])
    · rw [if_neg (by omega), if_neg (by omega)] at hkc
      simp only [List.mem_cons] at hkc
      rcases hkc with h | h
      · subst h; exact Or.inr (List.mem_cons_self _ _)
      · rcases ih kc h with h' | h'
        · exact Or.inl h'
        · exact Or.inr (List.mem_cons_of_mem _ h')

theorem sorted_addCount {m : PopMap} {k n : Nat} (hm : SortedMap m) :
    SortedMap (addCount m k n) := by
  induction m with
  | nil => simp [addCount, SortedMap]
  | cons hd tl ih =>
    obtain ⟨k', c⟩ := hd
    rw [SortedMap, List.pairwise_cons] at hm
    rw [addCount]
    rcases Nat.lt_trichotomy k k' with hlt | heq | hgt
    · rw [if_pos hlt, SortedMap, List.pairwise_cons]
      constructor
      · intro kc hkc
        simp only [List.mem_cons] at hkc
        rcases hkc with h | h
        · subst h; exact hlt
        · exact lt_trans hlt (hm.1 kc h)
      · exact List.pairwise_cons.mpr hm
    · rw [if_neg (by omega), if_pos heq, SortedMap, List.pairwise_cons]
      exact ⟨hm.1, hm.2⟩
    · rw [if_neg (by omega), if_neg (by omega), SortedMap, List.pairwise_cons]
      constructor
      · intro kc hkc
        rcases mem_addCount kc hkc with h | h
        · simp only at h ⊢; omega
        · exact hm.1 kc h
      · exact ih hm.2

theorem pos_addCount {m : PopMap} {k n : Nat} (hm : PosMap m) (hn : 1 ≤ n) :
    PosMap (addCount m k n) := by
  induction m with
  | nil =>
    intro kc hkc
    simp only [addCount, List.mem_singleton] at hkc
    subst hkc; exact hn
  | cons hd tl ih =>
    obtain ⟨k', c⟩ := hd
    have hc : 1 ≤ c := hm (k', c) (List.mem_cons_self _ _)
    have htl : PosMap tl := fun kc hkc => hm kc (List.mem_cons_of_mem _ hkc)
    intro kc hkc
    rw [addCount] at hkc
    rcases Nat.lt_trichotomy k k' with hlt | heq | hgt
    · rw [if_pos hlt] at hkc
      simp only [List.mem_cons] at hkc
      rcases hkc with h | h | h
      · subst h; exact hn
      · subst h; exact hc
      · exact htl kc h
    · rw [if_neg (by omega), if_pos heq] at hkc
      simp only [List.mem_cons] at hkc
      rcases hkc with h | h
      · subst h; simp only; omega
      · exact htl kc h
    · rw [if_neg (by omega), if_neg (by omega)] at hkc
      simp only [List.mem_cons] at hkc
      rcases hkc with h | h
      · subst h; exact hc
      · exact ih htl kc h

theorem getCount_addCount {m : PopMap} (hm : SortedMap m) (k n j : Nat) :
    getCount (addCount m k n) j =
      if j = k then getCount m j + n else getCount m j := by
  induction m with
  | nil =>
    by_cases hj : j = k
    · subst hj; simp [addCount, getCount]
    · have hj' : ¬ k = j := fun h => hj h.symm
      simp [addCount, getCount, hj, hj']
  | cons hd tl ih =>
    obtain ⟨k', c⟩ := hd
    rw [SortedMap, List.pairwise_cons] at hm
    have ihs := ih hm.2
    rw [addCount]
    rcases Nat.lt_trichotomy k k' with hlt | heq | hgt
    · rw [if_pos hlt]
      by_cases hj : j = k
      · subst hj
        have h1 : getCount ((k', c) :: tl) j = 0 := by
          apply getCount_eq_zero_of_forall
          intro kc hkc
          simp only [List.mem_cons] at hkc
          rcases hkc with h | h
          · subst h; simp only; omega
          · have := hm.1 kc h; simp only at this ⊢; omega
        simp [getCount]
        simpa [getCount] using h1
      · have hj' : ¬ k = j := fun h => hj h.symm
        simp [getCount, hj, hj']
    · subst heq
      rw [if_neg (by omega), if_pos rfl]
      by_cases hj : j = k
      · subst hj; simp [getCount]
      · have hj' : ¬ k = j := fun h => hj h.symm
        simp [getCount, hj, hj']
    · rw [if_neg (by omega), if_neg (by omega)]
      by_cases hj : j = k'
      · subst hj
        have hj' : ¬ j = k := by omega
        simp [getCount, hj']
      · have hj' : ¬ k' = j := fun h => hj h.symm
        simp only [getCount, if_neg hj']
        exact ihs

theorem getCount_increment {m : PopMap} (hm : SortedMap m) (k j : Nat) :
    getCount (increment m k) j =
      if j = k then getCount m j + 1 else getCount m j :=
  getCount_addCount hm k 1 j

theorem sorted_increment {m : PopMap} {k : Nat} (hm : SortedMap m) :
    SortedMap (increment m k) := sorted_addCount hm

theorem pos_increment {m : PopMap} {k : Nat} (hm : PosMap m) :
    PosMap (increment m k) := pos_addCount hm (le_refl 1)

theorem mapSum_addCount (m : PopMap) (k n : Nat) :
    mapSum (addCount m k n) = mapSum m + n := by
  induction m with
  | nil => simp [addCount, mapSum]
  | cons hd tl ih =>
    obtain ⟨k', c⟩ := hd
    rw [addCount]
    rcases Nat.lt_trichotomy k k' with hlt | heq | hgt
    · rw [if_pos hlt]
      simp only [mapSum]; omega
    · rw [if_neg (by omega), if_pos heq]
      simp only [mapSum]; omega
    · rw [if_neg (by omega), if_neg (by omega)]
      simp only [mapSum]; omega

/-! ### Erase lemmas (finalization by `map.erase(intNoData)`,
source lines 251-255) -/

theorem getCount_eraseKey (m : PopMap) (k j : Nat) :
    getCount (eraseKey m k) j = if j = k then 0 else getCount m j := by
  induction m with
  | nil => simp [eraseKey, getCount]
  | cons hd tl ih =>
    obtain ⟨k', c⟩ := hd
    rw [eraseKey]
    by_cases hk : k' = k
    · rw [if_pos hk, ih]
      by_cases hj : j = k
      · simp [hj]
      · have hj' : ¬ k' = j := by omega
        simp [getCount, hj, hj']
    · rw [if_neg hk]
      by_cases hj : j = k'
      · subst hj
        have hj' : ¬ j = k := fun h => hk (by omega)
        simp [getCount, hj']
      · have hj' : ¬ k' = j := fun h => hj h.symm
        simp only [getCount, if_neg hj']
        exact ih

theorem hasKey_eraseKey_self (m : PopMap) (k : Nat) :
    hasKey (eraseKey m k) k = false := by
  induction m with
  | nil => rfl
  | cons hd tl ih =>
    obtain ⟨k', c⟩ := hd
    rw [eraseKey]
    by_cases hk : k' = k
    · rw [if_pos hk]; exact ih
    · rw [if_neg hk]
      simp [hasKey, hk, ih]

theorem hasKey_eraseKey_ne (m : PopMap) {k j : Nat} (hj : j ≠ k) :
    hasKey (eraseKey m k) j = hasKey m j := by
  induction m with
  | nil => rfl
  | cons hd tl ih =>
    obtain ⟨k', c⟩ := hd
    rw [eraseKey]
    by_cases hk : k' = k
    · rw [if_pos hk, ih]
      have hk' : ¬ k' = j := by omega
      simp [hasKey, hk']
    · rw [if_neg hk]
      simp [hasKey, ih]

theorem eraseKey_eq_self_of_not_hasKey {m : PopMap} {k : Nat}
    (h : hasKey m k = false) : eraseKey m k = m := by
  induction m with
  | nil => rfl
  | cons hd tl ih =>
    obtain ⟨k', c⟩ := hd
    simp only [hasKey, Bool.or_eq_false_iff, decide_eq_false_iff_not] at h
    rw [eraseKey, if_neg h.1, ih h.2]

theorem mapSum_eraseKey {m : PopMap} (hm : SortedMap m) (k : Nat) :
    mapSum m = mapSum (eraseKey m k) + getCount m k := by
  induction m with
  | nil => rfl
  | cons hd tl ih =>
    obtain ⟨k', c⟩ := hd
    rw [SortedMap, List.pairwise_cons] at hm
    rw [eraseKey]
    by_cases hk : k' = k
    · subst hk
      have htl : eraseKey tl k' = tl :=
        eraseKey_eq_self_of_not_hasKey (hasKey_eq_false_of_forall
          (fun kc hkc => by have := hm.1 kc hkc; omega))
      rw [if_pos rfl, htl]
      have hg : getCount ((k', c) :: tl) k' = c := by rw [getCount, if_pos rfl]
      rw [hg]
      simp only [mapSum]
      omega
    · rw [if_neg hk]
      have := ih hm.2
      simp only [mapSum, getCount, if_neg hk]
      omega

/-! ### The streaming accumulator, modelled from the spec -/

section Accumulator

variable {Cell : Type}

/-- Modelled from the spec: one cell step of the
`StreamingStatisticsMapFromLabelImageFilter` population accumulation
(the filter's implementation is not part of this repository; spec §4.3:
"for each cell, if the validity mask is true at that cell, increment the
population map's entry for the label raster's value at that cell
(creating the entry with count 1 if absent); if the validity mask is
false, the cell is skipped regardless of its label value"). -/
def accumCell (label : Cell → Nat) (mask : Cell → Bool)
    (m : PopMap) (c : Cell) : PopMap :=
  if mask c then increment m (label c) else m

/-- Modelled from the spec: accumulation of one tile (a list of cells)
of the label raster against the validity mask, spec §4.3. -/
def accumTile (label : Cell → Nat) (mask : Cell → Bool)
    (m : PopMap) (cells : List Cell) : PopMap :=
  cells.foldl (accumCell label mask) m

/-- Number of cells of a tile that are valid and carry label `j`. -/
def validCount (label : Cell → Nat) (mask : Cell → Bool)
    (cells : List Cell) (j : Nat) : Nat :=
  (cells.filter (fun c => mask c && (label c == j))).length

theorem sorted_accumCell {label : Cell → Nat} {mask : Cell → Bool}
    {m : PopMap} {c : Cell} (hm : SortedMap m) :
    SortedMap (accumCell label mask m c) := by
  rw [accumCell]
  by_cases hc : mask c
  · rw [if_pos hc]; exact sorted_increment hm
  · rw [if_neg hc]; exact hm

theorem pos_accumCell {label : Cell → Nat} {mask : Cell → Bool}
    {m : PopMap} {c : Cell} (hm : PosMap m) :
    PosMap (accumCell label mask m c) := by
  rw [accumCell]
  by_cases hc : mask c
  · rw [if_pos hc]; exact pos_increment hm
  · rw [if_neg hc]; exact hm

theorem sorted_accumTile {label : Cell → Nat} {mask : Cell → Bool}
    {m : PopMap} {cells : List Cell} (hm : SortedMap m) :
    SortedMap (accumTile label mask m cells) := by
  induction cells generalizing m with
  | nil => exact hm
  | cons c cs ih => exact ih (sorted_accumCell hm)

theorem pos_accumTile {label : Cell → Nat} {mask : Cell → Bool}
    {m : PopMap} {cells : List Cell} (hm : PosMap m) :
    PosMap (accumTile label mask m cells) := by
  induction cells generalizing m with
  | nil => exact hm
  | cons c cs ih => exact ih (pos_accumCell hm)

theorem getCount_accumTile {label : Cell → Nat} {mask : Cell → Bool}
    {m : PopMap} (hm : SortedMap m) (cells : List Cell) (j : Nat) :
    getCount (accumTile label mask m cells) j
      = getCount m j + validCount label mask cells j := by
  induction cells generalizing m with
  | nil => simp [accumTile, validCount]
  | cons c cs ih =>
    have step : accumTile label mask m (c :: cs)
        = accumTile label mask (accumCell label mask m c) cs := rfl
    rw [step, ih (sorted_accumCell hm)]
    rw [accumCell]
    by_cases hc : mask c
    · rw [if_pos hc, getCount_increment hm]
      by_cases hj : j = label c
      · rw [if_pos hj]
        have : validCount label mask (c :: cs) j
            = validCount label mask cs j + 1 := by
          simp [validCount, List.filter_cons, hc, hj.symm]
        omega
      · rw [if_neg hj]
        have hne : (label c == j) = false := by
          simp only [beq_eq_false_iff_ne, ne_eq]
          exact fun h => hj h.symm
        have : validCount label mask (c :: cs) j = validCount label mask cs j := by
          simp [validCount, List.filter_cons, hne]
        omega
    · rw [if_neg hc]
      have : validCount label mask (c :: cs) j = validCount label mask cs j := by
        simp [validCount, List.filter_cons, hc]
      omega

theorem mapSum_accumTile {label : Cell → Nat} {mask : Cell → Bool}
    (m : PopMap) (cells : List Cell) :
    mapSum (accumTile label mask m cells)
      = mapSum m + (cells.filter mask).length := by
  induction cells generalizing m with
  | nil => simp [accumTile]
  | cons c cs ih =>
    have step : accumTile label mask m (c :: cs)
        = accumTile label mask (accumCell label mask m c) cs := rfl
    rw [step, ih]
    rw [accumCell]
    by_cases hc : mask c
    · rw [if_pos hc, increment, mapSum_addCount]
      simp [List.filter_cons, hc]
      omega
    · rw [if_neg hc]
      simp [List.filter_cons, hc]

theorem accumTile_append {label : Cell → Nat} {mask : Cell → Bool}
    (m : PopMap) (l1 l2 : List Cell) :
    accumTile label mask m (l1 ++ l2)
      = accumTile label mask (accumTile label mask m l1) l2 :=
  List.foldl_append _ _ _ _

theorem validCount_append {label : Cell → Nat} {mask : Cell → Bool}
    (l1 l2 : List Cell) (j : Nat) :
    validCount label mask (l1 ++ l2) j
      = validCount label mask l1 j + validCount label mask l2 j := by
  simp [validCount, List.filter_append]

theorem validCount_join {label : Cell → Nat} {mask : Cell → Bool}
    (tiles : List (List Cell)) (j : Nat) :
    validCount label mask tiles.flatten j
      = (tiles.map (fun t => validCount label mask t j)).sum := by
  induction tiles with
  | nil => simp [validCount]
  | cons t ts ih => simp [List.flatten, validCount_append, ih]

theorem validCount_perm {label : Cell → Nat} {mask : Cell → Bool}
    {l1 l2 : List Cell} (h : l1.Perm l2) (j : Nat) :
    validCount label mask l1 j = validCount label mask l2 j :=
  (h.filter _).length_eq

/-! ### Merging partial maps -/

theorem sorted_mergeMaps {m1 m2 : PopMap} (h1 : SortedMap m1) :
    SortedMap (mergeMaps m1 m2) := by
  induction m2 generalizing m1 with
  | nil => exact h1
  | cons kc t ih => exact ih (sorted_addCount h1)

theorem pos_mergeMaps {m1 m2 : PopMap} (h1 : PosMap m1) (h2 : PosMap m2) :
    PosMap (mergeMaps m1 m2) := by
  induction m2 generalizing m1 with
  | nil => exact h1
  | cons kc t ih =>
    exact ih (pos_addCount h1 (h2 kc (List.mem_cons_self _ _)))
      (fun kc' hkc' => h2 kc' (List.mem_cons_of_mem _ hkc'))

theorem getCount_mergeMaps {m1 m2 : PopMap}
    (h1 : SortedMap m1) (h2 : SortedMap m2) (j : Nat) :
    getCount (mergeMaps m1 m2) j = getCount m1 j + getCount m2 j := by
  induction m2 generalizing m1 with
  | nil => simp [mergeMaps, getCount]
  | cons kc t ih =>
    obtain ⟨k, c⟩ := kc
    rw [SortedMap, List.pairwise_cons] at h2
    have step : mergeMaps m1 ((k, c) :: t) = mergeMaps (addCount m1 k c) t := rfl
    rw [step, ih (sorted_addCount h1) h2.2, getCount_addCount h1]
    by_cases hj : j = k
    · subst hj
      have ht : getCount t j = 0 := getCount_eq_zero_of_forall
        (fun kc hkc => by have := h2.1 kc hkc; simp only at this ⊢; omega)
      simp [getCount, ht]
    · have hj' : ¬ k = j := fun h => hj h.symm
      simp [getCount, hj, hj']

theorem sorted_foldl_merge {maps : List PopMap} {acc : PopMap}
    (hacc : SortedMap acc) : SortedMap (maps.foldl mergeMaps acc) := by
  induction maps generalizing acc with
  | nil => exact hacc
  | cons m ms ih => exact ih (sorted_mergeMaps hacc)

theorem getCount_foldl_merge {maps : List PopMap} {acc : PopMap}
    (hacc : SortedMap acc) (hmaps : ∀ m ∈ maps, SortedMap m) (j : Nat) :
    getCount (maps.foldl mergeMaps acc) j
      = getCount acc j + (maps.map (fun m => getCount m j)).sum := by
  induction maps generalizing acc with
  | nil => simp
  | cons m ms ih =>
    have step : (m :: ms).foldl mergeMaps acc = ms.foldl mergeMaps (mergeMaps acc m) := rfl
    rw [step, ih (sorted_mergeMaps hacc)
      (fun m' hm' => hmaps m' (List.mem_cons_of_mem _ hm'))]
    rw [getCount_mergeMaps hacc (hmaps m (List.mem_cons_self _ _))]
    simp only [List.map_cons, List.sum_cons]
    omega

/-! ### Extensionality for sorted, positive maps -/

theorem sortedMap_ext : ∀ (m1 m2 : PopMap), SortedMap m1 → SortedMap m2 →
    PosMap m1 → PosMap m2 →
    (∀ k, getCount m1 k = getCount m2 k) → m1 = m2 := by
  intro m1
  induction m1 with
  | nil =>
    intro m2 _ hs2 _ hp2 hext
    cases m2 with
    | nil => rfl
    | cons kc t =>
      obtain ⟨k, c⟩ := kc
      have h1 := hext k
      rw [getCount_cons_self] at h1
      have := hp2 (k, c) (List.mem_cons_self _ _)
      simp only [getCount] at h1
      omega
  | cons kc1 t1 ih =>
    intro m2 hs1 hs2 hp1 hp2 hext
    obtain ⟨k1, c1⟩ := kc1
    cases m2 with
    | nil =>
      have h1 := hext k1
      rw [getCount_cons_self] at h1
      have := hp1 (k1, c1) (List.mem_cons_self _ _)
      simp only [getCount] at h1
      omega
    | cons kc2 t2 =>
      obtain ⟨k2, c2⟩ := kc2
      rw [SortedMap, List.pairwise_cons] at hs1 hs2
      have hc1 : 1 ≤ c1 := hp1 (k1, c1) (List.mem_cons_self _ _)
      have hc2 : 1 ≤ c2 := hp2 (k2, c2) (List.mem_cons_self _ _)
      have hkeq : k1 = k2 := by
        rcases Nat.lt_trichotomy k1 k2 with hlt | heq | hgt
        · exfalso
          have h1 := hext k1
          rw [getCount_cons_self] at h1
          have h2 : getCount ((k2, c2) :: t2) k1 = 0 := by
            apply getCount_eq_zero_of_forall
            intro kc hkc
            simp only [List.mem_cons] at hkc
            rcases hkc with h | h
            · subst h; simp only; omega
            · have := hs2.1 kc h; simp only at this ⊢; omega
          omega
        · exact heq
        · exfalso
          have h1 := hext k2
          rw [getCount_cons_self] at h1
          have h2 : getCount ((k1, c1) :: t1) k2 = 0 := by
            apply getCount_eq_zero_of_forall
            intro kc hkc
            simp only [List.mem_cons] at hkc
            rcases hkc with h | h
            · subst h; simp only; omega
            · have := hs1.1 kc h; simp only at this ⊢; omega
          omega
      subst hkeq
      have hceq : c1 = c2 := by
        have h1 := hext k1
        rw [getCount_cons_self, getCount_cons_self] at h1
        exact h1
      subst hceq
      have htail : t1 = t2 := by
        apply ih t2 hs1.2 hs2.2
          (fun kc hkc => hp1 kc (List.mem_cons_of_mem _ hkc))
          (fun kc hkc => hp2 kc (List.mem_cons_of_mem _ hkc))
        intro k
        by_cases hk : k = k1
        · subst hk
          have z1 : getCount t1 k = 0 := getCount_eq_zero_of_forall
            (fun kc hkc => by have := hs1.1 kc hkc; simp only at this ⊢; omega)
          have z2 : getCount t2 k = 0 := getCount_eq_zero_of_forall
            (fun kc hkc => by have := hs2.1 kc hkc; simp only at this ⊢; omega)
          rw [z1, z2]
        · have h1 := hext k
          rw [getCount_cons_ne c1 t1 (fun h : k1 = k => hk h.symm),
            getCount_cons_ne c1 t2 (fun h : k1 = k => hk h.symm)] at h1
          exact h1
      rw [htail]

end Accumulator

/-! ### The rasterizer, modelled from the spec -/

section Rasterizer

variable {Cell : Type}

/-- A reprojected input geometry with its synthetic sequential
identifier (`fid`), its class-field burn value (`classValue`), and its
footprint on the raster grid (`covers`). -/
structure Geometry (Cell : Type) where
  fid : Nat
  classValue : Nat
  covers : Cell → Bool

/-- Modelled from the spec: `VectorDataToLabelImageFilter` (its
implementation is not part of this repository; spec §4.1: each cell
equals the burn value of the topmost geometry covering it, where "the
last geometry in input order that covers it wins", and an uncovered
cell holds the configured background value). -/
def rasterize (background : Nat) (burn : Geometry Cell → Nat)
    (gs : List (Geometry Cell)) (c : Cell) : Nat :=
  gs.foldl (fun v g => if g.covers c then burn g else v) background

/-- Whether some geometry covers the cell. -/
def coveredB (gs : List (Geometry Cell)) (c : Cell) : Bool :=
  gs.any (fun g => g.covers c)

theorem rasterize_cons (background : Nat) (burn : Geometry Cell → Nat)
    (g : Geometry Cell) (gs : List (Geometry Cell)) (c : Cell) :
    rasterize background burn (g :: gs) c
      = rasterize (if g.covers c then burn g else background) burn gs c := rfl

theorem rasterize_not_covered {gs : List (Geometry Cell)} {c : Cell}
    (h : coveredB gs c = false) (background : Nat) (burn : Geometry Cell → Nat) :
    rasterize background burn gs c = background := by
  induction gs with
  | nil => rfl
  | cons g t ih =>
    simp only [coveredB, List.any_cons, Bool.or_eq_false_iff] at h
    rw [rasterize_cons, if_neg (by simp [h.1])]
    exact ih (by simp [coveredB, h.2])

theorem rasterize_covered {gs : List (Geometry Cell)} {c : Cell}
    (h : coveredB gs c = true) (background : Nat) (burn : Geometry Cell → Nat) :
    ∃ g ∈ gs, g.covers c = true ∧ rasterize background burn gs c = burn g := by
  induction gs generalizing background with
  | nil => simp [coveredB] at h
  | cons g t ih =>
    by_cases ht : coveredB t c = true
    · obtain ⟨g', hg'mem, hg'cov, hg'val⟩ := ih ht (if g.covers c then burn g else background)
      exact ⟨g', List.mem_cons_of_mem _ hg'mem, hg'cov, hg'val⟩
    · have hgc : g.covers c = true := by
        simp only [coveredB, List.any_cons, Bool.or_eq_true] at h
        rcases h with h | h
        · exact h
        · exact absurd h ht
      refine ⟨g, List.mem_cons_self _ _, hgc, ?_⟩
      rw [rasterize_cons, if_pos hgc]
      exact rasterize_not_covered (by simpa using ht) (burn g) burn

theorem rasterize_append (background : Nat) (burn : Geometry Cell → Nat)
    (l1 l2 : List (Geometry Cell)) (c : Cell) :
    rasterize background burn (l1 ++ l2) c
      = rasterize (rasterize background burn l1 c) burn l2 c :=
  List.foldl_append _ _ _ _

end Rasterizer

/-! ### The application pipeline (`DoExecute`, source lines 167-263) -/

section Pipeline

variable {Cell : Type}

/-- The geometry-identifier label raster: `m_RasterizeFIDFilter`
configured with `SetBackgroundValue(intNoData)` (source line 215) and
burning the polygon ID (source line 212). -/
def fidRaster (gs : List (Geometry Cell)) (c : Cell) : Nat :=
  rasterize intNoData (fun g => g.fid) gs c

/-- The class label raster: `m_RasterizeClassFilter` configured with
`SetBackgroundValue(intNoData)` (source line 226) and burning the class
field (source line 224). -/
def classRaster (gs : List (Geometry Cell)) (c : Cell) : Nat :=
  rasterize intNoData (fun g => g.classValue) gs c

/-- Finalization of a population map: `map.erase(intNoData)`
(source lines 254-255). -/
def finalizeMap (m : PopMap) : PopMap := eraseKey m intNoData

/-- The `samplesPerVector` output map: the FID-raster population map
with the no-data entry erased (source lines 252, 254, 260). -/
def samplesPerVector (gs : List (Geometry Cell)) (mask : Cell → Bool)
    (cells : List Cell) : PopMap :=
  finalizeMap (accumTile (fidRaster gs) mask [] cells)

/-- The `samplesPerClass` output map: the class-raster population map
with the no-data entry erased (source lines 253, 255, 259). -/
def samplesPerClass (gs : List (Geometry Cell)) (mask : Cell → Bool)
    (cells : List Cell) : PopMap :=
  finalizeMap (accumTile (classRaster gs) mask [] cells)

end Pipeline

/-! ### Parameter validation (`DoUpdateParameters`, source lines 121-165) -/

/-- Model of `itksys::SystemTools::GetFilenameName`: the part of the
path after the last directory separator. -/
def filenameName (p : List Char) : List Char :=
  p.foldl (fun acc c => if c = '/' then [] else acc ++ [c]) []

/-- Model of `itksys::SystemTools::GetFilenameLastExtension`: the substring of
the file name starting at its last dot (dot included), or empty when the
file name has no dot (source line 158). -/
def lastExtension (p : List Char) : List Char :=
  (filenameName p).foldl
    (fun acc c =>
      if c = '.' then [c] else if acc.isEmpty then [] else acc ++ [c]) []

/-- Model of `itksys::SystemTools::LowerCase`: character-wise ASCII
lowering. -/
def lowerCase (s : List Char) : List Char := s.map Char.toLower

/-- The single extension accepted for the output parameter
(source line 160). -/
def xmlExt : List Char := ".xml".toList

/-- The fatal message raised on a wrong output extension
(source line 162). -/
def wrongExtMsg (out : List Char) : List Char :=
  lastExtension out ++ " is a wrong extension for parameter \"out\": Expected .xml".toList

/-- The fatal message raised when no class field is selected
(source line 184). -/
def noFieldMsg : List Char :=
  "No field has been selected for data labelling!".toList

/-- Outcome of running (part of) the application: either a fatal log
(`otbAppLogFATAL`, which throws) or a computed result. -/
inductive AppOutcome (α : Type) where
  | fatal (msg : List Char)
  | ok (a : α)
deriving DecidableEq

/-- The inputs the modelled run consumes: the output path and field
selection (parameters), and the data handed to the modelled
collaborators (reprojected geometries, validity mask, raster extent). -/
structure AppInputs (Cell : Type) where
  out : List Char
  selectedField : List Nat
  geometries : List (Geometry Cell)
  mask : Cell → Bool
  cells : List Cell

/-- Model of `DoExecute` (source lines 167-263): first the field-selection check
(lines 180-185), then rasterization, accumulation and finalization.
The raster pipeline is consulted only in the non-fatal branch. -/
def doExecute {Cell : Type} (inp : AppInputs Cell) :
    AppOutcome (PopMap × PopMap) :=
  if inp.selectedField.isEmpty then .fatal noFieldMsg
  else .ok (samplesPerClass inp.geometries inp.mask inp.cells,
    samplesPerVector inp.geometries inp.mask inp.cells)

/-- The full run: `DoUpdateParameters` validates the output extension
(source lines 154-164) before `DoExecute` runs; a wrong extension is
fatal there, so no raster is opened and no polygon analysis starts. -/
def runApp {Cell : Type} (inp : AppInputs Cell) :
    AppOutcome (PopMap × PopMap) :=
  if lowerCase (lastExtension inp.out) = xmlExt then doExecute inp
  else .fatal (wrongExtMsg inp.out)

/-! ### Class-field enumeration (`DoUpdateParameters`, source
lines 123-148) -/

/-- The OGR field types (`OGRFieldType` of GDAL). -/
inductive OGRFieldType where
  | OFTInteger | OFTIntegerList | OFTReal | OFTRealList
  | OFTString | OFTStringList | OFTWideString | OFTWideStringList
  | OFTBinary | OFTDate | OFTTime | OFTDateTime
  | OFTInteger64 | OFTInteger64List
deriving DecidableEq

/-- A field declaration of an OGR feature: its name and its type. -/
structure FieldDefn where
  name : List Char
  fieldType : OGRFieldType
deriving DecidableEq

/-- An OGR feature: its field declarations. -/
structure OgrFeature where
  fields : List FieldDefn
deriving DecidableEq

/-- An OGR layer: its features, in read order. -/
structure OgrLayer where
  features : List OgrFeature
deriving DecidableEq

/-- An OGR data source: its layers. -/
structure OgrDataSource where
  layers : List OgrLayer
deriving DecidableEq

/-- The feature `DoUpdateParameters` inspects: `GetLayer(0)` then
`GetNextFeature()` — the first feature of the first layer
(source lines 128-129). -/
def firstFeature (ds : OgrDataSource) : OgrFeature :=
  match ds.layers with
  | [] => ⟨[]⟩
  | l :: _ =>
    match l.features with
    | [] => ⟨[]⟩
    | f :: _ => f

/-- Utility function to negate `std::isalnum` (source lines 30-33). -/
def IsNotAlphaNum (c : Char) : Bool := !c.isAlphanum

/-- The sanitized choice key computed from a field name:
`std::remove_if(.., IsNotAlphaNum)` then `tolower` over the kept part
(source lines 136-138, 144). -/
def sanitizeKey (name : List Char) : List Char :=
  (name.filter (fun c => !(IsNotAlphaNum c))).map Char.toLower

/-- The parameter path `"field."` prepended to each choice key
(source line 144). -/
def fieldDotStr : List Char := "field.".toList

/-- Whether a field type is offered as a class-field choice
(source line 142). -/
def allowedFieldType : OGRFieldType → Bool
  | .OFTString => true
  | .OFTInteger => true
  | .OFTInteger64 => true
  | _ => false

/-- The `(key, item)` choices added to the `field` parameter by the
loop of `DoUpdateParameters` (source lines 133-147): one choice per
String / Integer / Integer64 field of the first feature of the first
layer, keyed by the sanitized field name. -/
def computeFieldChoices (ds : OgrDataSource) : List (List Char × List Char) :=
  (firstFeature ds).fields.foldl
    (fun acc f =>
      if allowedFieldType f.fieldType then
        acc ++ [(fieldDotStr ++ sanitizeKey f.name, f.name)]
      else acc) []

theorem computeFieldChoices_eq (ds : OgrDataSource) :
    computeFieldChoices ds
      = ((firstFeature ds).fields.filter (fun f => allowedFieldType f.fieldType)).map
          (fun f => (fieldDotStr ++ sanitizeKey f.name, f.name)) := by
  rw [computeFieldChoices]
  generalize (firstFeature ds).fields = fields
  suffices h : ∀ (acc : List (List Char × List Char)),
      fields.foldl
        (fun acc f =>
          if allowedFieldType f.fieldType then
            acc ++ [(fieldDotStr ++ sanitizeKey f.name, f.name)]
          else acc) acc
        = acc ++ (fields.filter (fun f => allowedFieldType f.fieldType)).map
            (fun f => (fieldDotStr ++ sanitizeKey f.name, f.name)) by
    simpa using h []
  induction fields with
  | nil => intro acc; simp
  | cons f fs ih =>
    intro acc
    by_cases hf : allowedFieldType f.fieldType
    · simp [List.foldl_cons, List.filter_cons, hf, ih]
    · simp [List.foldl_cons, List.filter_cons, hf, ih]

/-! ### Auxiliary lemmas for the claims -/

theorem allowedFieldType_iff (ft : OGRFieldType) :
    allowedFieldType ft = true
      ↔ (ft = .OFTString ∨ ft = .OFTInteger ∨ ft = .OFTInteger64) := by
  cases ft <;> simp [allowedFieldType]

theorem sanitizeKey_eq (name : List Char) :
    sanitizeKey name
      = (name.filter (fun c => c.isAlphanum)).map Char.toLower := by
  simp [sanitizeKey, IsNotAlphaNum]

theorem validCount_eq_zero {Cell : Type} {label : Cell → Nat}
    {mask : Cell → Bool} {cells : List Cell} {k : Nat}
    (h : ∀ x ∈ cells, label x = k → mask x = false) :
    validCount label mask cells k = 0 := by
  induction cells with
  | nil => rfl
  | cons c cs ih =>
    have hcs := ih (fun x hx => h x (List.mem_cons_of_mem _ hx))
    rw [validCount, List.filter_cons]
    by_cases hl : label c = k
    · have hmc : mask c = false := h c (List.mem_cons_self _ _) hl
      rw [if_neg (by simp [hmc])]
      exact hcs
    · rw [if_neg (by simp [beq_eq_false_iff_ne, hl])]
      exact hcs

theorem length_filter_split {α : Type} (l : List α) (p q : α → Bool) :
    (l.filter p).length
      = (l.filter (fun a => p a && q a)).length
        + (l.filter (fun a => p a && !q a)).length := by
  induction l with
  | nil => rfl
  | cons a t ih =>
    simp only [List.filter_cons]
    by_cases hp : p a
    · by_cases hq : q a
      · rw [if_pos hp, if_pos (by simp [hp, hq]), if_neg (by simp [hp, hq])]
        simp only [List.length_cons]
        omega
      · rw [if_pos hp, if_neg (by simp [hp, hq]), if_pos (by simp [hp, hq])]
        simp only [List.length_cons]
        omega
    · rw [if_neg (by simp [hp]), if_neg (by simp [hp]), if_neg (by simp [hp])]
      exact ih

/-- The count surviving finalization: erasing key `s` from the
accumulated map leaves the number of valid cells whose label is not
`s`. -/
theorem mapSum_finalize_accum {Cell : Type} (label : Cell → Nat)
    (mask : Cell → Bool) (cells : List Cell) (s : Nat) :
    mapSum (eraseKey (accumTile label mask [] cells) s)
      = (cells.filter (fun c => mask c && !(label c == s))).length := by
  have hsorted : SortedMap (accumTile label mask [] cells) :=
    sorted_accumTile List.Pairwise.nil
  have htotal : mapSum (accumTile label mask [] cells)
      = (cells.filter mask).length := by
    have := @mapSum_accumTile Cell label mask [] cells
    simpa [mapSum] using this
  have hsplit := mapSum_eraseKey hsorted s
  have hcount : getCount (accumTile label mask [] cells) s
      = validCount label mask cells s := by
    have := @getCount_accumTile Cell label mask [] List.Pairwise.nil cells s
    simpa [getCount] using this
  have hpart := length_filter_split cells mask (fun c => label c == s)
  rw [validCount] at hcount
  have hco : (cells.filter (fun c => mask c && (label c == s)))
      = (cells.filter (fun c => mask c && (label c == s))) := rfl
  omega

theorem foldl_accumTile_flatten {Cell : Type} (label : Cell → Nat)
    (mask : Cell → Bool) (tiles : List (List Cell)) (m : PopMap) :
    tiles.foldl (accumTile label mask) m
      = accumTile label mask m tiles.flatten := by
  induction tiles generalizing m with
  | nil => rfl
  | cons t ts ih =>
    simp only [List.foldl_cons, List.flatten_cons]
    rw [ih, accumTile_append]

theorem pos_foldl_merge {maps : List PopMap} {acc : PopMap}
    (hacc : PosMap acc) (hmaps : ∀ m ∈ maps, PosMap m) :
    PosMap (maps.foldl mergeMaps acc) := by
  induction maps generalizing acc with
  | nil => exact hacc
  | cons m ms ih =>
    exact ih (pos_mergeMaps hacc (hmaps m (List.mem_cons_self _ _)))
      (fun m' hm' => hmaps m' (List.mem_cons_of_mem _ hm'))

/-! ### The claims -/

/-- Claim C2: for all inputs, neither finalized output mapping
(`samplesPerVector`, `samplesPerClass`) contains an entry keyed by the
no-data sentinel `intNoData` (the maximum of the `UInt32` label pixel
type): the sentinel key is erased at finalization
(source lines 251-261). -/
theorem C2_no_sentinel_in_outputs {Cell : Type} (gs : List (Geometry Cell))
    (mask : Cell → Bool) (cells : List Cell) :
    hasKey (samplesPerVector gs mask cells) intNoData = false
    ∧ hasKey (samplesPerClass gs mask cells) intNoData = false :=
  ⟨hasKey_eraseKey_self _ _, hasKey_eraseKey_self _ _⟩

/-- Claim C9: finalization (`map.erase(intNoData)`, source
lines 254-255) is a pure key-removal frame: every entry whose key is
not the sentinel keeps exactly its count (and its presence), and a map
without the sentinel key is left entirely unchanged. -/
theorem C9_finalize_frame (m : PopMap) (k : Nat) :
    (k ≠ intNoData →
      getCount (finalizeMap m) k = getCount m k
      ∧ hasKey (finalizeMap m) k = hasKey m k)
    ∧ (hasKey m intNoData = false → finalizeMap m = m) := by
  refine ⟨fun hk => ⟨?_, ?_⟩, fun h => eraseKey_eq_self_of_not_hasKey h⟩
  · rw [finalizeMap, getCount_eraseKey, if_neg hk]
  · exact hasKey_eraseKey_ne m hk

theorem C9_finalize_frame_witness :
    (3 ≠ intNoData
      ∧ getCount (finalizeMap [(3, 5), (intNoData, 2)]) 3
          = getCount [(3, 5), (intNoData, 2)] 3
      ∧ hasKey (finalizeMap [(3, 5), (intNoData, 2)]) 3
          = hasKey [(3, 5), (intNoData, 2)] 3)
    ∧ (hasKey [(3, 5)] intNoData = false ∧ finalizeMap [(3, 5)] = [(3, 5)]) :=
  ⟨⟨by decide, (C9_finalize_frame [(3, 5), (intNoData, 2)] 3).1 (by decide)⟩,
    ⟨by decide, (C9_finalize_frame [(3, 5)] 3).2 (by decide)⟩⟩

/-- Claim C7: any output path whose last extension, compared after
ASCII lowering, differs from `".xml"` makes the run fatal during
parameter validation (source lines 154-164), before `DoExecute` (and
hence before any raster access or polygon analysis): the outcome is the
wrong-extension fatal message, independent of every raster input. -/
theorem C7_bad_extension_fatal {Cell : Type} (inp : AppInputs Cell)
    (h : lowerCase (lastExtension inp.out) ≠ xmlExt) :
    runApp inp = .fatal (wrongExtMsg inp.out) := by
  rw [runApp, if_neg h]

/-- The inputs of spec Scenario C: output path `stats.json`. -/
def statsJsonInputs : AppInputs Nat :=
  ⟨"stats.json".toList, [0], [], fun _ => true, []⟩

theorem C7_bad_extension_fatal_witness :
    lowerCase (lastExtension statsJsonInputs.out) ≠ xmlExt
    ∧ runApp statsJsonInputs = .fatal (wrongExtMsg statsJsonInputs.out) :=
  ⟨by decide, C7_bad_extension_fatal statsJsonInputs (by decide)⟩

/-- Claim C8: when no class field is selected, `DoExecute` fails with
the fatal no-field message as its very first step (source
lines 180-185): the outcome does not depend on the geometries, the
mask, or the raster extent, so no rasterization, streaming, or raster
I/O is performed. -/
theorem C8_no_field_fatal {Cell : Type} (inp : AppInputs Cell)
    (h : inp.selectedField = []) :
    doExecute inp = .fatal noFieldMsg := by
  rw [doExecute, if_pos (by simp [h])]

/-- Inputs with a valid output path but no selected class field. -/
def noFieldInputs : AppInputs Nat :=
  ⟨"stats.xml".toList, [], [], fun _ => true, []⟩

theorem C8_no_field_fatal_witness :
    noFieldInputs.selectedField = []
    ∧ doExecute noFieldInputs = .fatal noFieldMsg :=
  ⟨by decide, C8_no_field_fatal noFieldInputs (by decide)⟩

/-- Claim C10: the selectable class fields come from the first feature
of the first layer only, and `(key, item)` is offered as a choice iff
`item` is the name of a field of that feature whose type is String,
Integer or Integer64, with `key` the parameter path `"field."` followed
by the field name with non-alphanumeric characters removed and letters
lowercased (source lines 121-148 and 29-33). -/
theorem C10_field_choices (ds : OgrDataSource) (key item : List Char) :
    (key, item) ∈ computeFieldChoices ds
      ↔ ∃ f ∈ (firstFeature ds).fields,
          (f.fieldType = .OFTString ∨ f.fieldType = .OFTInteger
            ∨ f.fieldType = .OFTInteger64)
          ∧ item = f.name
          ∧ key = fieldDotStr
              ++ (f.name.filter (fun c => c.isAlphanum)).map Char.toLower := by
  rw [computeFieldChoices_eq]
  constructor
  · intro hmem
    rw [List.mem_map] at hmem
    obtain ⟨f, hf, heq⟩ := hmem
    rw [List.mem_filter] at hf
    obtain ⟨hkey, hitem⟩ := Prod.mk.injEq .. ▸ heq
    refine ⟨f, hf.1, (allowedFieldType_iff _).mp hf.2, hitem.symm, ?_⟩
    rw [← hkey, sanitizeKey_eq]
  · rintro ⟨f, hfmem, hallow, hitem, hkey⟩
    rw [List.mem_map]
    refine ⟨f, ?_, ?_⟩
    · rw [List.mem_filter]
      exact ⟨hfmem, (allowedFieldType_iff _).mpr hallow⟩
    · rw [hitem, hkey, sanitizeKey_eq]

/-- Claim C1 (spec-modelled accumulator, spec §4.3): a valid cell
increments the population entry of the cell's label — creating it with
count 1 when absent, adding 1 when present — an invalid cell is skipped
regardless of its label, and a label value occurring only behind
invalid cells never appears in the accumulated map. -/
theorem C1_accumulate_valid_cells {Cell : Type} (label : Cell → Nat)
    (mask : Cell → Bool) (m : PopMap) (c : Cell) (cells : List Cell)
    (k : Nat) (hm : SortedMap m) :
    (mask c = true → accumCell label mask m c = increment m (label c))
    ∧ (mask c = false → accumCell label mask m c = m)
    ∧ (hasKey m (label c) = false →
        getCount (increment m (label c)) (label c) = 1)
    ∧ getCount (increment m (label c)) (label c) = getCount m (label c) + 1
    ∧ ((∀ x ∈ cells, label x = k → mask x = false) →
        hasKey (accumTile label mask [] cells) k = false) := by
  have hinc : getCount (increment m (label c)) (label c)
      = getCount m (label c) + 1 := by
    rw [getCount_increment hm, if_pos rfl]
  refine ⟨fun h => ?_, fun h => ?_, fun h => ?_, hinc, fun h => ?_⟩
  · rw [accumCell, if_pos h]
  · rw [accumCell, if_neg (by simp [h])]
  · rw [hinc, getCount_eq_zero_of_not_hasKey h]
  · apply hasKey_eq_false_of_getCount_eq_zero
      (pos_accumTile (fun kc hkc => absurd hkc (List.not_mem_nil kc)))
    have := @getCount_accumTile Cell label mask [] List.Pairwise.nil cells k
    rw [this, validCount_eq_zero h]
    rfl

/-- Example label raster for the accumulator witness. -/
def exLabel : Nat → Nat := fun c => c % 3

/-- Example validity mask for the accumulator witness. -/
def exMask : Nat → Bool := fun c => c == 0 || c == 2

/-- Example population map for the accumulator witness. -/
def exMap : PopMap := [(2, 1)]

theorem C1_accumulate_valid_cells_witness :
    SortedMap exMap
    ∧ (exMask 0 = true
        ∧ accumCell exLabel exMask exMap 0 = increment exMap (exLabel 0))
    ∧ (exMask 1 = false ∧ accumCell exLabel exMask exMap 1 = exMap)
    ∧ (hasKey exMap (exLabel 0) = false
        ∧ getCount (increment exMap (exLabel 0)) (exLabel 0) = 1)
    ∧ getCount (increment exMap (exLabel 0)) (exLabel 0)
        = getCount exMap (exLabel 0) + 1
    ∧ ((∀ x ∈ [1, 4], exLabel x = 1 → exMask x = false)
        ∧ hasKey (accumTile exLabel exMask [] [1, 4]) 1 = false) :=
  ⟨by decide,
    ⟨by decide,
      (C1_accumulate_valid_cells exLabel exMask exMap 0 [] 0 (by decide)).1
        (by decide)⟩,
    ⟨by decide,
      (C1_accumulate_valid_cells exLabel exMask exMap 1 [] 0 (by decide)).2.1
        (by decide)⟩,
    ⟨by decide,
      (C1_accumulate_valid_cells exLabel exMask exMap 0 [] 0 (by decide)).2.2.1
        (by decide)⟩,
    (C1_accumulate_valid_cells exLabel exMask exMap 0 [] 0 (by decide)).2.2.2.1,
    ⟨by decide,
      (C1_accumulate_valid_cells exLabel exMask exMap 0 [1, 4] 1
        (by decide)).2.2.2.2 (by decide)⟩⟩

/-- Claim C5 (spec-modelled rasterizer, spec §4.1, configured at source
lines 206-227): when several geometries cover a cell, the last one in
input order wins in both label rasters, so a valid cell covered last by
a geometry counts toward that geometry's identifier in the FID map and
toward its class value in the class map. -/
theorem C5_last_writer_wins {Cell : Type} (pre post : List (Geometry Cell))
    (g : Geometry Cell) (c : Cell) (mask : Cell → Bool) (m1 m2 : PopMap)
    (hg : g.covers c = true) (hpost : coveredB post c = false)
    (hmask : mask c = true) :
    fidRaster (pre ++ g :: post) c = g.fid
    ∧ classRaster (pre ++ g :: post) c = g.classValue
    ∧ accumCell (fidRaster (pre ++ g :: post)) mask m1 c
        = increment m1 g.fid
    ∧ accumCell (classRaster (pre ++ g :: post)) mask m2 c
        = increment m2 g.classValue := by
  have hfid : fidRaster (pre ++ g :: post) c = g.fid := by
    rw [fidRaster, rasterize_append, rasterize_cons, if_pos hg]
    exact rasterize_not_covered hpost _ _
  have hcls : classRaster (pre ++ g :: post) c = g.classValue := by
    rw [classRaster, rasterize_append, rasterize_cons, if_pos hg]
    exact rasterize_not_covered hpost _ _
  refine ⟨hfid, hcls, ?_, ?_⟩
  · rw [accumCell, if_pos hmask, hfid]
  · rw [accumCell, if_pos hmask, hcls]

/-- The earlier of spec Scenario D's two overlapping geometries. -/
def exEarly : Geometry Nat := ⟨1, 5, fun c => c == 0⟩

/-- The later of spec Scenario D's two overlapping geometries: ID 9,
class 3. -/
def exLate : Geometry Nat := ⟨9, 3, fun c => c == 0⟩

theorem C5_last_writer_wins_witness :
    (exLate.covers 0 = true ∧ coveredB ([] : List (Geometry Nat)) 0 = false
      ∧ (fun _ : Nat => true) 0 = true)
    ∧ fidRaster ([exEarly] ++ exLate :: []) 0 = exLate.fid
    ∧ classRaster ([exEarly] ++ exLate :: []) 0 = exLate.classValue
    ∧ accumCell (fidRaster ([exEarly] ++ exLate :: [])) (fun _ => true) [] 0
        = increment [] exLate.fid
    ∧ accumCell (classRaster ([exEarly] ++ exLate :: [])) (fun _ => true) [] 0
        = increment [] exLate.classValue := by
  refine ⟨⟨by decide, by decide, rfl⟩, ?_⟩
  exact C5_last_writer_wins [exEarly] [] exLate 0 (fun _ => true) [] []
    (by decide) (by decide) rfl

/-- A geometry covering only cell 0, leaving cell 1 uncovered. -/
def exUncov : Geometry Nat := ⟨1, 5, fun c => c == 0⟩

/-- Claim C6, counterexample: the application configures both
rasterizers with `SetBackgroundValue(intNoData)` (source lines 215 and
226), so a cell covered by no geometry rasterizes to the no-data
sentinel and never to 0 — refuting the claim that the non-burned
background value of the label rasters is 0; `SetDefaultBurnValue(0)`
(source lines 216 and 227) concerns covered geometries without a burn
attribute, not uncovered cells. -/
theorem C6_counterexample :
    coveredB [exUncov] 1 = false
    ∧ fidRaster [exUncov] 1 = intNoData
    ∧ classRaster [exUncov] 1 = intNoData
    ∧ fidRaster [exUncov] 1 ≠ 0 := by decide

/-- Claim C6 as amended: every cell not covered by any geometry
rasterizes to the no-data sentinel in both label rasters, because the
application sets the rasterizers' background value to `intNoData`
(source lines 215, 226); the configured default burn value 0 (source
lines 216, 227) never stands for "uncovered". -/
theorem C6_uncovered_is_sentinel {Cell : Type} (gs : List (Geometry Cell))
    (c : Cell) (h : coveredB gs c = false) :
    fidRaster gs c = intNoData ∧ classRaster gs c = intNoData :=
  ⟨rasterize_not_covered h _ _, rasterize_not_covered h _ _⟩

theorem C6_uncovered_is_sentinel_witness :
    coveredB [exUncov] 2 = false
    ∧ fidRaster [exUncov] 2 = intNoData
    ∧ classRaster [exUncov] 2 = intNoData :=
  ⟨by decide,
    (C6_uncovered_is_sentinel [exUncov] 2 (by decide)).1,
    (C6_uncovered_is_sentinel [exUncov] 2 (by decide)).2⟩

/-- A label raster configured with background `intNoData` equals the
sentinel exactly on uncovered cells, provided no burn value collides
with the sentinel. -/
theorem raster_sentinel_eq {Cell : Type} (gs : List (Geometry Cell))
    (burn : Geometry Cell → Nat) (c : Cell)
    (hb : ∀ g ∈ gs, burn g ≠ intNoData) :
    (rasterize intNoData burn gs c == intNoData) = !(coveredB gs c) := by
  by_cases hcov : coveredB gs c = true
  · obtain ⟨g, hmem, _, hval⟩ := rasterize_covered hcov intNoData burn
    simp [hcov, hval, hb g hmem]
  · rw [Bool.not_eq_true] at hcov
    rw [rasterize_not_covered hcov, hcov]
    simp

/-- Claim C3 (spec-modelled rasterizer and accumulator; each geometry
carries exactly one class value by construction): as long as no
geometry identifier and no class value collides with the sentinel, the
total of `samplesPerVector` and the total of `samplesPerClass` both
equal the number of cells that are covered by some geometry and
pixel-valid — the two accumulators consume the same validity mask
(source lines 237 and 245), so the two totals agree. -/
theorem C3_sums_equal_covered_valid {Cell : Type}
    (gs : List (Geometry Cell)) (mask : Cell → Bool) (cells : List Cell)
    (hfid : ∀ g ∈ gs, g.fid ≠ intNoData)
    (hcls : ∀ g ∈ gs, g.classValue ≠ intNoData) :
    mapSum (samplesPerVector gs mask cells)
      = (cells.filter (fun c => coveredB gs c && mask c)).length
    ∧ mapSum (samplesPerClass gs mask cells)
      = (cells.filter (fun c => coveredB gs c && mask c)).length := by
  constructor
  · rw [samplesPerVector, finalizeMap, mapSum_finalize_accum]
    apply congrArg List.length
    apply List.filter_congr
    intro c _
    rw [show fidRaster gs c = rasterize intNoData (fun g => g.fid) gs c
        from rfl,
      raster_sentinel_eq gs (fun g => g.fid) c hfid,
      Bool.not_not, Bool.and_comm]
  · rw [samplesPerClass, finalizeMap, mapSum_finalize_accum]
    apply congrArg List.length
    apply List.filter_congr
    intro c _
    rw [show classRaster gs c = rasterize intNoData (fun g => g.classValue) gs c
        from rfl,
      raster_sentinel_eq gs (fun g => g.classValue) c hcls,
      Bool.not_not, Bool.and_comm]

/-- The two half-covering geometries of spec Scenario A (IDs 1 and 2,
classes 5 and 7), on a 4-cell extent with cells 0,1 on the left and
2,3 on the right. -/
def exLeft : Geometry Nat := ⟨1, 5, fun c => c < 2⟩

/-- The right-half geometry of spec Scenario A. -/
def exRight : Geometry Nat := ⟨2, 7, fun c => decide (2 ≤ c && c < 4)⟩

theorem C3_sums_equal_covered_valid_witness :
    ((∀ g ∈ [exLeft, exRight], g.fid ≠ intNoData)
      ∧ (∀ g ∈ [exLeft, exRight], g.classValue ≠ intNoData))
    ∧ mapSum (samplesPerVector [exLeft, exRight] (fun c => c != 0) [0, 1, 2, 3])
        = (([0, 1, 2, 3].filter
            (fun c => coveredB [exLeft, exRight] c && (c != 0)))).length
    ∧ mapSum (samplesPerClass [exLeft, exRight] (fun c => c != 0) [0, 1, 2, 3])
        = (([0, 1, 2, 3].filter
            (fun c => coveredB [exLeft, exRight] c && (c != 0)))).length :=
  ⟨⟨by decide, by decide⟩,
    (C3_sums_equal_covered_valid [exLeft, exRight] (fun c => c != 0)
      [0, 1, 2, 3] (by decide) (by decide)).1,
    (C3_sums_equal_covered_valid [exLeft, exRight] (fun c => c != 0)
      [0, 1, 2, 3] (by decide) (by decide)).2⟩

/-- Claim C4 (spec-modelled accumulator, spec §4.3/§5): the final
population map is tiling-independent. For every family of tiles that
covers the extent exactly once (its concatenation is a permutation of
the extent's cells), sequentially accumulating tile after tile yields
the same map as one single pass over the whole extent, and so does
accumulating every tile separately from an empty map and merging the
partial maps by key-wise summation; hence any two tilings — e.g. those
induced by different memory budgets — produce identical final maps. -/
theorem C4_tiling_invariance {Cell : Type} (label : Cell → Nat)
    (mask : Cell → Bool) (cells : List Cell) (tiles : List (List Cell))
    (hcover : tiles.flatten.Perm cells) :
    tiles.foldl (accumTile label mask) [] = accumTile label mask [] cells
    ∧ (tiles.map (accumTile label mask [])).foldl mergeMaps []
        = accumTile label mask [] cells := by
  have hsnil : SortedMap [] := List.Pairwise.nil
  have hpnil : PosMap [] := fun kc hkc => absurd hkc (List.not_mem_nil kc)
  have hright : ∀ j, getCount (accumTile label mask [] cells) j
      = validCount label mask cells j := by
    intro j
    have := @getCount_accumTile Cell label mask [] hsnil cells j
    simpa [getCount] using this
  constructor
  · rw [foldl_accumTile_flatten]
    apply sortedMap_ext _ _ (sorted_accumTile hsnil) (sorted_accumTile hsnil)
      (pos_accumTile hpnil) (pos_accumTile hpnil)
    intro j
    rw [hright j]
    have := @getCount_accumTile Cell label mask [] hsnil tiles.flatten j
    rw [this]
    simp only [getCount, Nat.zero_add]
    exact validCount_perm hcover j
  · apply sortedMap_ext _ _
      (sorted_foldl_merge hsnil) (sorted_accumTile hsnil)
      (pos_foldl_merge hpnil
        (fun m hm => by
          rw [List.mem_map] at hm
          obtain ⟨t, _, ht⟩ := hm
          rw [← ht]
          exact pos_accumTile hpnil))
      (pos_accumTile hpnil)
    intro j
    rw [getCount_foldl_merge hsnil
      (fun m hm => by
        rw [List.mem_map] at hm
        obtain ⟨t, _, ht⟩ := hm
        rw [← ht]
        exact sorted_accumTile hsnil) j]
    rw [hright j, ← validCount_perm hcover j, validCount_join]
    simp only [getCount, List.map_map, Nat.zero_add]
    apply congrArg List.sum
    apply List.map_congr_left
    intro t _
    simp only [Function.comp]
    have := @getCount_accumTile Cell label mask [] hsnil t j
    simpa [getCount] using this

theorem C4_tiling_invariance_witness :
    ([[2, 3], [0, 1]] : List (List Nat)).flatten.Perm [0, 1, 2, 3]
    ∧ ([[2, 3], [0, 1]] : List (List Nat)).foldl
        (accumTile (fun c => c % 2) (fun c => c != 3)) []
        = accumTile (fun c => c % 2) (fun c => c != 3) [] [0, 1, 2, 3]
    ∧ (([[2, 3], [0, 1]] : List (List Nat)).map
        (accumTile (fun c => c % 2) (fun c => c != 3) [])).foldl mergeMaps []
        = accumTile (fun c => c % 2) (fun c => c != 3) [] [0, 1, 2, 3] :=
  ⟨by decide,
    (C4_tiling_invariance (fun c => c % 2) (fun c => c != 3) [0, 1, 2, 3]
      [[2, 3], [0, 1]] (by decide)).1,
    (C4_tiling_invariance (fun c => c % 2) (fun c => c != 3) [0, 1, 2, 3]
      [[2, 3], [0, 1]] (by decide)).2⟩

end DensePolygonClassStatistics
